import Mathlib

/-!
Shallow embedding of the real-time audio pipeline of the voice-changer-phone
repository, with theorems checking the specification's claims against it.

Conventions of the embedding:
* Node `Buffer` values are `List Nat` of bytes (each entry `< 256` where the
  code guarantees it); 16-bit little-endian reads and writes are explicit.
* JavaScript numbers are modelled exactly: integer-valued arithmetic as
  `Nat`/`Int`, fractional arithmetic (sample-rate ratios, averages) as `ℚ`;
  `Math.floor`/`Math.ceil`/`Math.round` are `Int.floor`/`Int.ceil` and
  `⌊x + 1/2⌋`.
* Asynchronous, stateful code (the audio bridge) is a labelled transition
  system whose steps are the synchronous segments between `await` points.
* Fallible code returns `Except`; a caught exception is a handled `.error`.
-/

/-! ## Definitions: the embedded program and the specification-side readings -/

/-- One little-endian signed 16-bit read, `Buffer.readInt16LE(off)`.
Out-of-range offsets read byte 0 (the code never exercises them). -/
def readInt16LE (buf : List Nat) (off : Nat) : Int :=
  let u := buf.getD off 0 + 256 * buf.getD (off + 1) 0
  if u < 32768 then (u : Int) else (u : Int) - 65536

/-- One little-endian signed 16-bit write, `Buffer.writeInt16LE(v, off)`:
the two bytes of `v mod 2^16`, low byte first. -/
def writeInt16LE (v : Int) : List Nat :=
  let u := (v % 65536).toNat
  [u % 256, u / 256]

/-- The `while (!(sample & expMask) && exponent > 0)` loop of `linearToMulaw`:
starting from exponent 7 and mask 0x4000, step down until the mask hits a set
bit or the exponent reaches 0. -/
def findExponent (sample : Nat) : Nat → Nat → Nat
  | 0, _ => 0
  | e + 1, mask => if sample &&& mask ≠ 0 then e + 1 else findExponent sample e (mask >>> 1)

/-- Function `linearToMulaw(sample)` from audio-codec.js: sign, clip the magnitude to
`MULAW_MAX = 0x1FFF`, add `MULAW_BIAS = 33`, find the exponent by the mask
ladder, extract the mantissa, combine and complement.  The combined byte is at
most 255, so JS `~x & 0xFF` is `255 - x`. -/
def linearToMulaw (sample : Int) : Nat :=
  let sign : Nat := if sample < 0 then 0x80 else 0
  let mag0 : Nat := sample.natAbs
  let mag : Nat := if mag0 > 0x1FFF then 0x1FFF else mag0
  let biased : Nat := mag + 33
  let exponent : Nat := findExponent biased 7 0x4000
  let mantissa : Nat := (biased >>> (exponent + 3)) &&& 0x0F
  255 - (sign ||| (exponent <<< 4) ||| mantissa)

/-- Entry `i` of `MULAW_DECODE_TABLE` as built by `initMulawTables`: for
`i < 256` the low eight bits of JS `~i` are `255 - i`; sign from bit 7,
exponent from bits 6–4, mantissa from bits 3–0, magnitude
`((mantissa << 3) | 0x84) << exponent - 0x84`. -/
def MULAW_DECODE_TABLE (i : Nat) : Int :=
  let mulaw := 255 - i
  let sign : Int := if mulaw &&& 0x80 ≠ 0 then -1 else 1
  let exponent := (mulaw >>> 4) &&& 0x07
  let mantissa := mulaw &&& 0x0F
  let magnitude : Nat := (((mantissa <<< 3) ||| 0x84) <<< exponent) - 0x84
  sign * magnitude

/-- Entry `i` of `MULAW_ENCODE_TABLE` as built by `initMulawTables`:
`linearToMulaw(i - 32768)` for the unsigned table index `i`. -/
def MULAW_ENCODE_TABLE (i : Nat) : Nat :=
  linearToMulaw ((i : Int) - 32768)

/-- Function `mulawDecode(mulawBuffer)`: each input byte is looked up in the decode
table and written as a 16-bit little-endian sample. -/
def mulawDecode (mulawBuffer : List Nat) : List Nat :=
  mulawBuffer.flatMap (fun b => writeInt16LE (MULAW_DECODE_TABLE b))

/-- Function `mulawEncode(pcmBuffer)`: `numSamples = Math.floor(length / 2)` samples are
read as little-endian 16-bit, shifted to the unsigned index `sample + 32768`
and looked up in the encode table. -/
def mulawEncode (pcmBuffer : List Nat) : List Nat :=
  (List.range (pcmBuffer.length / 2)).map
    (fun i => MULAW_ENCODE_TABLE ((readInt16LE pcmBuffer (2 * i) + 32768).toNat))

/-- JS `Math.round`: round half toward positive infinity. -/
def jsRound (x : ℚ) : Int := ⌊x + 1 / 2⌋

/-- The per-output-sample body of `resample`'s loop: source position `i*ratio`,
floor index, fractional part, the two neighbouring samples (the second
duplicated from the first when out of range), linear interpolation, rounding,
clamp to the signed 16-bit range. -/
def resampleSampleAt (pcmBuffer : List Nat) (fromRate toRate i : Nat) : Int :=
  let inputSamples := pcmBuffer.length / 2
  let r : ℚ := (fromRate : ℚ) / (toRate : ℚ)
  let srcPos : ℚ := (i : ℚ) * r
  let srcIndex : Nat := (⌊srcPos⌋).toNat
  let frac : ℚ := srcPos - (srcIndex : ℚ)
  let sample1 := readInt16LE pcmBuffer (min (srcIndex * 2) ((inputSamples - 1) * 2))
  let sample2 := if srcIndex + 1 < inputSamples
    then readInt16LE pcmBuffer ((srcIndex + 1) * 2)
    else sample1
  let interpolated := jsRound ((sample1 : ℚ) * (1 - frac) + (sample2 : ℚ) * frac)
  max (-32768) (min 32767 interpolated)

/-- Function `resample(pcmBuffer, fromRate, toRate)`: identity on equal rates, else
`Math.floor(inputSamples / ratio)` interpolated samples written back as
little-endian 16-bit pairs. -/
def resample (pcmBuffer : List Nat) (fromRate toRate : Nat) : List Nat :=
  if fromRate = toRate then pcmBuffer
  else
    let inputSamples := pcmBuffer.length / 2
    let r : ℚ := (fromRate : ℚ) / (toRate : ℚ)
    let outputSamples : Nat := (⌊(inputSamples : ℚ) / r⌋).toNat
    (List.range outputSamples).flatMap
      (fun i => writeInt16LE (resampleSampleAt pcmBuffer fromRate toRate i))

/-- Function `calculateRMS(pcmBuffer)` up to the final monotone `Math.sqrt`: the mean of
the squared samples over `numSamples = Math.floor(length / 2)` samples, `0`
for an empty buffer.  (The square root of this exact rational is the RMS; the
sqrt itself plays no part in the claims checked here.) -/
def rmsSquared (pcmBuffer : List Nat) : ℚ :=
  let numSamples := pcmBuffer.length / 2
  if numSamples = 0 then 0
  else (((List.range numSamples).map
    (fun i => readInt16LE pcmBuffer (2 * i) * readInt16LE pcmBuffer (2 * i))).sum : ℚ)
    / (numSamples : ℚ)

/-- Divide-and-conquer bounded check of `f` on `[a, a + n)`; the fuel keeps the
recursion structural and the evaluation depth logarithmic. -/
def checkRange (f : Nat → Bool) : Nat → Nat → Nat → Bool
  | 0, _, n => n == 0
  | fuel + 1, a, n =>
    if n = 0 then true
    else if n = 1 then f a
    else checkRange f fuel a (n / 2) && checkRange f fuel (a + n / 2) (n - n / 2)

/-- The claim's "exponent by the highest set bit over the ladder 7..0":
the exponent of the power-of-two segment that contains the biased sample,
0 when it is below the first rung. -/
def specExponent (biased : Nat) : Nat :=
  if biased < 0x100 then 0
  else if biased < 0x200 then 1
  else if biased < 0x400 then 2
  else if biased < 0x800 then 3
  else if biased < 0x1000 then 4
  else if biased < 0x2000 then 5
  else if biased < 0x4000 then 6
  else 7

/-- The claim's reading of `linearToMulaw`: absolute value, clip to 0x1FFF,
bias 33, highest-set-bit exponent, 4-bit mantissa at shift `exponent + 3`,
recombine sign, exponent and mantissa, complement — in plain arithmetic. -/
def specLinearToMulaw (sample : Int) : Nat :=
  let sign : Nat := if sample < 0 then 0x80 else 0
  let mag : Nat := min sample.natAbs 0x1FFF
  let biased : Nat := mag + 33
  let e : Nat := specExponent biased
  let m : Nat := biased / 2 ^ (e + 3) % 16
  255 - (sign + e * 16 + m)

/-- The claim's reading of one decode-table entry: complement, sign from
bit 7, exponent from bits 6-4, mantissa from bits 3-0, magnitude
`((mantissa << 3) | 0x84) << exponent - 0x84` — in plain arithmetic. -/
def specMulawDecodeSample (i : Nat) : Int :=
  let mulaw := 255 - i
  let sign : Int := if 128 ≤ mulaw then -1 else 1
  let exponent := mulaw / 16 % 8
  let mantissa := mulaw % 16
  sign * (((mantissa * 8 + 132) * 2 ^ exponent : Nat) - 132)

/-- Bool check that recombining disjoint sign/exponent/mantissa bit fields by
`|||` agrees with addition, tabulated over all byte values. -/
def orOK (i : Nat) : Bool :=
  ((i / 128 * 128) ||| ((i / 16 % 8) <<< 4) ||| (i % 16)) == i

/-- Bool check that each decode-table entry matches the claim's arithmetic
reading of the decode law. -/
def decodeOK (b : Nat) : Bool :=
  MULAW_DECODE_TABLE b == specMulawDecodeSample b

/-- Bool check that every decode-table entry lies in the signed 16-bit range
(in fact within magnitude 32124). -/
def decodeBoundOK (b : Nat) : Bool :=
  decide (-32768 ≤ MULAW_DECODE_TABLE b ∧ MULAW_DECODE_TABLE b ≤ 32767)

/-- The claim's per-output-sample rule: linear interpolation between the input
samples at `floor(i*ratio)` and `ceil(i*ratio)`, duplicating the last input
sample when the ceil index is past the end, rounded and clamped. -/
def specResampleSampleAt (pcmBuffer : List Nat) (fromRate toRate i : Nat) : Int :=
  let n := pcmBuffer.length / 2
  let r : ℚ := (fromRate : ℚ) / (toRate : ℚ)
  let p : ℚ := (i : ℚ) * r
  let lo : Nat := (⌊p⌋).toNat
  let hi : Nat := (⌈p⌉).toNat
  let frac : ℚ := p - (lo : ℚ)
  let slo := readInt16LE pcmBuffer (lo * 2)
  let shi := if hi < n then readInt16LE pcmBuffer (hi * 2)
    else readInt16LE pcmBuffer ((n - 1) * 2)
  let v := jsRound ((slo : ℚ) * (1 - frac) + (shi : ℚ) * frac)
  max (-32768) (min 32767 v)

/-- The claim's description of `resample`: identity on equal rates, otherwise
exactly `floor(inputSamples / ratio)` = `inputSamples * toRate / fromRate`
interpolated samples. -/
def specResample (pcmBuffer : List Nat) (fromRate toRate : Nat) : List Nat :=
  if fromRate = toRate then pcmBuffer
  else
    (List.range (pcmBuffer.length / 2 * toRate / fromRate)).flatMap
      (fun i => writeInt16LE (specResampleSampleAt pcmBuffer fromRate toRate i))

/-- State of `AudioBuffer`: constructor parameters, pending chunk list,
running byte count, and arrival time of the first chunk since the last flush
(`null` when nothing arrived; `Date.now()` values are positive, so the JS
truthiness test on `firstChunkTime` is the `Option` match). -/
structure AudioBuffer where
  targetMs : Nat
  sampleRate : Nat
  chunks : List (List Nat)
  totalBytes : Nat
  firstChunkTime : Option Nat

/-- Constructor `new AudioBuffer(targetMs, sampleRate)`. -/
def AudioBuffer.init (targetMs sampleRate : Nat) : AudioBuffer :=
  ⟨targetMs, sampleRate, [], 0, none⟩

/-- Derived `bytesPerMs = sampleRate / 1000` (a JS float; exact as a rational). -/
def AudioBuffer.bytesPerMs (b : AudioBuffer) : ℚ :=
  (b.sampleRate : ℚ) / 1000

/-- Derived `targetBytes = Math.ceil(targetMs * bytesPerMs)`. -/
def AudioBuffer.targetBytes (b : AudioBuffer) : Nat :=
  (⌈(b.targetMs : ℚ) * b.bytesPerMs⌉).toNat

/-- Derived `minMs = Math.max(100, targetMs - 50)` (clamped at 0 like JS for
`targetMs < 50`, where the max is 100 either way). -/
def AudioBuffer.minMs (b : AudioBuffer) : Nat :=
  max 100 (b.targetMs - 50)

/-- Derived `maxMs = targetMs + 100`. -/
def AudioBuffer.maxMs (b : AudioBuffer) : Nat :=
  b.targetMs + 100

/-- Method `push(chunk)` at time `now`: records `now` as `firstChunkTime` when the
pending list was empty, appends the chunk, adds its length. -/
def AudioBuffer.push (b : AudioBuffer) (now : Nat) (chunk : List Nat) : AudioBuffer :=
  { b with
    firstChunkTime := if b.chunks.isEmpty then some now else b.firstChunkTime,
    chunks := b.chunks ++ [chunk],
    totalBytes := b.totalBytes + chunk.length }

/-- Method `isReady()` at time `now`: byte threshold first, then the deadline test
guarded by a recorded first-chunk time, returning `totalBytes > 0` there. -/
def AudioBuffer.isReady (b : AudioBuffer) (now : Nat) : Bool :=
  if b.targetBytes ≤ b.totalBytes then true
  else
    match b.firstChunkTime with
    | some t0 => if b.maxMs ≤ now - t0 then decide (0 < b.totalBytes) else false
    | none => false

/-- Method `flush()`: `null` and unchanged state when nothing is pending, else the
concatenation in arrival order together with the fully reset state. -/
def AudioBuffer.flush (b : AudioBuffer) : Option (List Nat) × AudioBuffer :=
  if b.chunks.isEmpty then (none, b)
  else (some b.chunks.flatten,
    { b with chunks := [], totalBytes := 0, firstChunkTime := none })

/-- A sequence of `push` calls, each a `(time, chunk)` pair. -/
def pushSeq (b : AudioBuffer) (ps : List (Nat × List Nat)) : AudioBuffer :=
  ps.foldl (fun acc p => acc.push p.1 p.2) b

/-- One stage's breakdown record: its own rolling sample window, running sum,
and (unwindowed) total count. -/
structure StageData where
  samples : List Nat
  sum : Nat
  count : Nat

/-- State of `LatencyTracker`: capacity, global rolling window with running sum,
total number of samples ever recorded, and the per-stage map (`Map` modelled
as a total function defaulting to the empty record the code creates on first
use). -/
structure LatencyTracker where
  windowSize : Nat
  samples : List Nat
  totalSamples : Nat
  runningSum : Nat
  stages : String → StageData

/-- Constructor `new LatencyTracker(windowSize = 100)`. -/
def LatencyTracker.init (windowSize : Nat) : LatencyTracker :=
  ⟨windowSize, [], 0, 0, fun _ => ⟨[], 0, 0⟩⟩

/-- The shared push-then-evict step of `record`: append the sample, add it to
the running sum, and when the window length exceeds the capacity `shift()` the
oldest sample out, subtracting it from the sum. -/
def pushWindow (w : Nat) (samples : List Nat) (sum ms : Nat) : List Nat × Nat :=
  let s := samples ++ [ms]
  if w < s.length then (s.tail, sum + ms - s.headD 0) else (s, sum + ms)

/-- Method `record(ms, stage = 'total')`: push into the global window, bump
`totalSamples`, and push into the stage's window, bumping its (unwindowed)
`count`. -/
def LatencyTracker.record (t : LatencyTracker) (ms : Nat) (stage : String) : LatencyTracker :=
  let g := pushWindow t.windowSize t.samples t.runningSum ms
  let sd := t.stages stage
  let p := pushWindow t.windowSize sd.samples sd.sum ms
  { t with
    samples := g.1,
    runningSum := g.2,
    totalSamples := t.totalSamples + 1,
    stages := fun name =>
      if name = stage then ⟨p.1, p.2, sd.count + 1⟩ else t.stages name }

/-- A sequence of `record` calls. -/
def recordAll (t : LatencyTracker) (ps : List (Nat × String)) : LatencyTracker :=
  ps.foldl (fun acc p => acc.record p.1 p.2) t

def insertSorted (x : Nat) : List Nat → List Nat
  | [] => [x]
  | y :: ys => if x ≤ y then x :: y :: ys else y :: insertSorted x ys

/-- The numeric-ascending copy `[...samples].sort((a, b) => a - b)`. -/
def sortNat (l : List Nat) : List Nat :=
  l.foldr insertSorted []

/-- The record `getMetrics()` returns. -/
structure Metrics where
  average : Int
  min : Nat
  max : Nat
  p50 : Nat
  p95 : Nat
  p99 : Nat
  count : Nat

/-- Method `getMetrics()`: all-zero metrics when the window is empty, else average
from the running sum (`Math.round`), min/max/percentile reads on the sorted
window (index `Math.floor(length * q)`, as an exact rational), and
`count: this.totalSamples`. -/
def LatencyTracker.getMetrics (t : LatencyTracker) : Metrics :=
  if t.samples.length = 0 then ⟨0, 0, 0, 0, 0, 0, 0⟩
  else
    let sorted := sortNat t.samples
    { average := jsRound ((t.runningSum : ℚ) / (t.samples.length : ℚ)),
      min := sorted.headD 0,
      max := sorted.getD (sorted.length - 1) 0,
      p50 := sorted.getD ((⌊(sorted.length : ℚ) * (50 / 100)⌋).toNat) 0,
      p95 := sorted.getD ((⌊(sorted.length : ℚ) * (95 / 100)⌋).toNat) 0,
      p99 := sorted.getD ((⌊(sorted.length : ℚ) * (99 / 100)⌋).toNat) 0,
      count := t.totalSamples }

/-- The retained suffix of a history under a window of capacity `w`. -/
def suffixWindow (l : List Nat) (w : Nat) : List Nat :=
  l.drop (l.length - w)

/-- The tracker-state/history relation maintained by `record`. -/
def TrackerInv (t : LatencyTracker) (hist : List (Nat × String)) : Prop :=
  t.samples = suffixWindow (hist.map Prod.fst) t.windowSize
  ∧ t.runningSum = t.samples.sum
  ∧ t.totalSamples = hist.length
  ∧ ∀ name,
      (t.stages name).samples
          = suffixWindow ((hist.filter (fun p => p.2 = name)).map Prod.fst) t.windowSize
      ∧ (t.stages name).sum = (t.stages name).samples.sum
      ∧ (t.stages name).count = (hist.filter (fun p => p.2 = name)).length

structure Bridge where
  queue : List Nat
  isProcessing : Bool
  loops : Nat
  sent : List Nat
  arrived : List Nat
  hasTwilio : Bool

/-- A bridge as `createBridge` makes it: empty queue, not processing, no
endpoints. -/
def Bridge.start : Bridge :=
  ⟨[], false, 0, [], [], false⟩

/-- The synchronous segments of the bridge code:
* `connectTwilio` — `connectTwilioStream` attaches the Twilio socket (and, as
  in the code, starts no drain loop);
* `arriveStart` — `processClientAudio` appends the chunk and, finding
  `isProcessing` false with Twilio connected, sets the flag and launches a
  drain loop;
* `arriveQueue` — `processClientAudio` appends the chunk while a loop runs or
  Twilio is absent;
* `drainChunk` — one iteration of a running `processAudioQueue` loop shifts
  the oldest chunk and forwards it;
* `drainDone` — a running loop finds the queue empty, clears `isProcessing`
  and exits. -/
inductive BridgeStep : Bridge → Bridge → Prop
  | connectTwilio (s : Bridge) :
      BridgeStep s { s with hasTwilio := true }
  | arriveStart (s : Bridge) (c : Nat) :
      s.isProcessing = false → s.hasTwilio = true →
      BridgeStep s { s with queue := s.queue ++ [c], arrived := s.arrived ++ [c],
                            isProcessing := true, loops := s.loops + 1 }
  | arriveQueue (s : Bridge) (c : Nat) :
      s.isProcessing = true ∨ s.hasTwilio = false →
      BridgeStep s { s with queue := s.queue ++ [c], arrived := s.arrived ++ [c] }
  | drainChunk (s : Bridge) (c : Nat) (rest : List Nat) :
      0 < s.loops → s.queue = c :: rest →
      BridgeStep s { s with queue := rest, sent := s.sent ++ [c] }
  | drainDone (s : Bridge) :
      0 < s.loops → s.queue = [] →
      BridgeStep s { s with loops := s.loops - 1, isProcessing := false }

/-- States a bridge can reach from creation. -/
def BridgeReachable : Bridge → Prop :=
  Relation.ReflTransGen BridgeStep Bridge.start

/-- Method `removeBridge`: clears `isProcessing` and empties `audioQueue`; nothing is
forwarded (the map deletion is the state leaving the registry). -/
def removeBridge (s : Bridge) : Bridge :=
  { s with isProcessing := false, queue := [] }

/-- A concrete reachable state: Twilio connects, chunk 5 arrives and starts
the drain loop, the loop forwards it; chunk 6 arrives while the loop runs. -/
def bridgeWitnessState : Bridge :=
  ⟨[6], true, 1, [5], [5, 6], true⟩

/-- A reachable state with a chunk queued and nothing yet forwarded: the
client sends chunk 7 before the Twilio stream attaches, so it only queues. -/
def queuedOnlyState : Bridge :=
  ⟨[7], false, 0, [], [7], false⟩

/-- Table `VOICE_PRESETS` from voice-presets.js — the preset ids and ElevenLabs
voice ids (the `custom` entry's id comes from `CUSTOM_VOICE_ID`, defaulted to
the empty string). -/
def VOICE_PRESETS (customVoiceId : String) : List (String × String) :=
  [("deep_male", "pNInz6obpgDQGcFmaJgB"),
   ("young_male", "TxGEqnHWrfWFTfGW9XjX"),
   ("british_male", "SOYHLrjzK2X1ezoPC6cr"),
   ("narrator_male", "zcAOhNBS3c14rBihAFp1"),
   ("soft_female", "EXAVITQu4vr4xnSDxMaL"),
   ("professional_female", "21m00Tcm4TlvDq8ikWAM"),
   ("warm_female", "AZnzlk1XvdvUeBnXmlld"),
   ("mysterious", "VR6AewLTigWG4xSOukaG"),
   ("friendly_elder", "GBv7mTt0atIp3Br8iCZE"),
   ("custom", customVoiceId)]

/-- Function `getVoiceId(presetId)`: the preset's voice id, or `null` when the preset
is unknown. -/
def getVoiceId (customVoiceId presetId : String) : Option String :=
  (VOICE_PRESETS customVoiceId).lookup presetId

/-- Outcome of the one external HTTP call: a successful response with its
(possibly empty) body bytes, or any thrown failure — network error or the
non-ok status that `callSpeechToSpeechAPI` turns into a thrown error. -/
inductive ApiOutcome
  | success (body : List Nat)
  | failure (msg : String)

/-- Method `callSpeechToSpeechAPI`: returns the response bytes, or throws on network
error / non-success status. -/
def callSpeechToSpeechAPI (outcome : ApiOutcome) : Except String (List Nat) :=
  match outcome with
  | .success body => .ok body
  | .failure msg => .error msg

/-- Method `VoiceTransformer.transform(pcmBuffer, voicePreset, options)`: pass the
buffer through unchanged when no API key is set or the preset has no
(non-empty) voice id (`if (!voiceId)` — JS falsiness covers both `null` and
the empty custom id); otherwise call the API inside try/catch, returning its
body on success and the original buffer on any caught error.  The result type
records that no exception escapes. -/
def transform (apiKey : Option String) (customVoiceId : String) (pcmBuffer : List Nat)
    (voicePreset : String) (outcome : ApiOutcome) : Except String (List Nat) :=
  match apiKey with
  | none => .ok pcmBuffer
  | some _ =>
    match getVoiceId customVoiceId voicePreset with
    | none => .ok pcmBuffer
    | some voiceId =>
      if voiceId = "" then .ok pcmBuffer
      else
        match callSpeechToSpeechAPI outcome with
        | .ok body => .ok body
        | .error _ => .ok pcmBuffer

/-! ## Theorems -/

theorem checkRange_sound (f : Nat → Bool) :
    ∀ (fuel a n : Nat), checkRange f fuel a n = true → ∀ i, i < n → f (a + i) = true := by
  intro fuel
  induction fuel with
  | zero =>
    intro a n h i hi
    simp only [checkRange, beq_iff_eq] at h
    omega
  | succ k ih =>
    intro a n h i hi
    simp only [checkRange] at h
    by_cases h0 : n = 0
    · omega
    · by_cases h1 : n = 1
      · have : i = 0 := by omega
        subst this
        simpa [h0, h1] using h
      · simp only [if_neg h0, if_neg h1, Bool.and_eq_true] at h
        by_cases hlt : i < n / 2
        · exact ih a (n / 2) h.1 i hlt
        · have h2 := ih (a + n / 2) (n - n / 2) h.2 (i - n / 2) (by omega)
          have : a + n / 2 + (i - n / 2) = a + i := by omega
          rwa [this] at h2

theorem and_mask_zero (b p k : Nat) (hp : p = 2 ^ k) (h : b < p) : b &&& p = 0 := by
  subst hp
  simp [Nat.and_two_pow, Nat.testBit_lt_two_pow h]

theorem and_mask_pos (b p k : Nat) (hp : p = 2 ^ k) (hlo : p ≤ b) (hhi : b < 2 * p) :
    b &&& p ≠ 0 := by
  subst hp
  rw [Nat.and_two_pow, Nat.testBit_to_div_mod]
  have h1 : b / 2 ^ k = 1 := by
    have hpos : 0 < 2 ^ k := Nat.pos_pow_of_pos k (by norm_num)
    have hle : 1 ≤ b / 2 ^ k := (Nat.one_le_div_iff hpos).mpr hlo
    have hlt : b / 2 ^ k < 2 := Nat.div_lt_of_lt_mul (by omega)
    omega
  simp [h1]

theorem findExponent_le (s : Nat) : ∀ e m, findExponent s e m ≤ e := by
  intro e
  induction e with
  | zero => intro m; simp [findExponent]
  | succ k ih =>
    intro m
    simp only [findExponent]
    split
    · exact Nat.le_refl _
    · exact Nat.le_succ_of_le (ih _)

theorem findExponent_unfold (b : Nat) :
    findExponent b 7 0x4000 =
      (if b &&& 16384 ≠ 0 then 7
       else if b &&& 8192 ≠ 0 then 6
       else if b &&& 4096 ≠ 0 then 5
       else if b &&& 2048 ≠ 0 then 4
       else if b &&& 1024 ≠ 0 then 3
       else if b &&& 512 ≠ 0 then 2
       else if b &&& 256 ≠ 0 then 1
       else 0) := rfl

theorem findExponent_eq_spec (b : Nat) (hb : b < 16384) :
    findExponent b 7 0x4000 = specExponent b := by
  rw [findExponent_unfold]
  have z14 : ¬(b &&& 16384 ≠ 0) :=
    not_not_intro (and_mask_zero b 16384 14 (by norm_num) (by omega))
  rw [if_neg z14]
  rcases (by omega :
      b < 256 ∨ (256 ≤ b ∧ b < 512) ∨ (512 ≤ b ∧ b < 1024) ∨ (1024 ≤ b ∧ b < 2048) ∨
      (2048 ≤ b ∧ b < 4096) ∨ (4096 ≤ b ∧ b < 8192) ∨ (8192 ≤ b ∧ b < 16384)) with
    h | h | h | h | h | h | h
  · rw [if_neg (not_not_intro (and_mask_zero b 8192 13 (by norm_num) (by omega))),
      if_neg (not_not_intro (and_mask_zero b 4096 12 (by norm_num) (by omega))),
      if_neg (not_not_intro (and_mask_zero b 2048 11 (by norm_num) (by omega))),
      if_neg (not_not_intro (and_mask_zero b 1024 10 (by norm_num) (by omega))),
      if_neg (not_not_intro (and_mask_zero b 512 9 (by norm_num) (by omega))),
      if_neg (not_not_intro (and_mask_zero b 256 8 (by norm_num) (by omega)))]
    unfold specExponent
    split_ifs <;> omega
  · rw [if_neg (not_not_intro (and_mask_zero b 8192 13 (by norm_num) (by omega))),
      if_neg (not_not_intro (and_mask_zero b 4096 12 (by norm_num) (by omega))),
      if_neg (not_not_intro (and_mask_zero b 2048 11 (by norm_num) (by omega))),
      if_neg (not_not_intro (and_mask_zero b 1024 10 (by norm_num) (by omega))),
      if_neg (not_not_intro (and_mask_zero b 512 9 (by norm_num) (by omega))),
      if_pos (and_mask_pos b 256 8 (by norm_num) (by omega) (by omega))]
    unfold specExponent
    split_ifs <;> omega
  · rw [if_neg (not_not_intro (and_mask_zero b 8192 13 (by norm_num) (by omega))),
      if_neg (not_not_intro (and_mask_zero b 4096 12 (by norm_num) (by omega))),
      if_neg (not_not_intro (and_mask_zero b 2048 11 (by norm_num) (by omega))),
      if_neg (not_not_intro (and_mask_zero b 1024 10 (by norm_num) (by omega))),
      if_pos (and_mask_pos b 512 9 (by norm_num) (by omega) (by omega))]
    unfold specExponent
    split_ifs <;> omega
  · rw [if_neg (not_not_intro (and_mask_zero b 8192 13 (by norm_num) (by omega))),
      if_neg (not_not_intro (and_mask_zero b 4096 12 (by norm_num) (by omega))),
      if_neg (not_not_intro (and_mask_zero b 2048 11 (by norm_num) (by omega))),
      if_pos (and_mask_pos b 1024 10 (by norm_num) (by omega) (by omega))]
    unfold specExponent
    split_ifs <;> omega
  · rw [if_neg (not_not_intro (and_mask_zero b 8192 13 (by norm_num) (by omega))),
      if_neg (not_not_intro (and_mask_zero b 4096 12 (by norm_num) (by omega))),
      if_pos (and_mask_pos b 2048 11 (by norm_num) (by omega) (by omega))]
    unfold specExponent
    split_ifs <;> omega
  · rw [if_neg (not_not_intro (and_mask_zero b 8192 13 (by norm_num) (by omega))),
      if_pos (and_mask_pos b 4096 12 (by norm_num) (by omega) (by omega))]
    unfold specExponent
    split_ifs <;> omega
  · rw [if_pos (and_mask_pos b 8192 13 (by norm_num) (by omega) (by omega))]
    unfold specExponent
    split_ifs <;> omega

theorem orOK_all : checkRange orOK 10 0 256 = true := by rfl

theorem combine_eq (sign b : Nat) (hs : sign = 0 ∨ sign = 128) (hb : b < 16384) :
    sign ||| (findExponent b 7 0x4000 <<< 4) |||
      ((b >>> (findExponent b 7 0x4000 + 3)) &&& 0x0F)
      = sign + specExponent b * 16 + b / 2 ^ (specExponent b + 3) % 16 := by
  rw [findExponent_eq_spec b hb]
  set e := specExponent b with he
  have hm : (b >>> (e + 3)) &&& 0x0F = b / 2 ^ (e + 3) % 16 := by
    rw [Nat.shiftRight_eq_div_pow]
    have h15 : (0x0F : Nat) = 2 ^ 4 - 1 := by norm_num
    rw [h15, Nat.and_pow_two_sub_one_eq_mod]
  rw [hm]
  set m := b / 2 ^ (e + 3) % 16 with hmdef
  have hm15 : m ≤ 15 := by
    have := Nat.mod_lt (b / 2 ^ (e + 3)) (show 0 < 16 by norm_num)
    omega
  have he7 : e ≤ 7 := by
    rw [he]
    unfold specExponent
    split_ifs <;> omega
  have h := checkRange_sound orOK 10 0 256 orOK_all (sign + e * 16 + m) (by omega)
  simp only [orOK, beq_iff_eq, Nat.zero_add] at h
  have d1 : (sign + e * 16 + m) / 128 * 128 = sign := by
    rcases hs with rfl | rfl <;> omega
  have d2 : (sign + e * 16 + m) / 16 % 8 = e := by
    rcases hs with rfl | rfl <;> omega
  have d3 : (sign + e * 16 + m) % 16 = m := by omega
  rw [d1, d2, d3] at h
  exact h

theorem linearToMulaw_eq_spec (s : Int) : linearToMulaw s = specLinearToMulaw s := by
  simp only [linearToMulaw, specLinearToMulaw]
  have hmag : (if s.natAbs > 0x1FFF then 0x1FFF else s.natAbs) = min s.natAbs 0x1FFF := by
    split <;> omega
  rw [hmag]
  exact congrArg (255 - ·)
    (combine_eq _ _ (by rcases lt_or_le s 0 with h | h <;> simp [h, not_lt.mpr]) (by omega))

theorem decodeOK_all : checkRange decodeOK 10 0 256 = true := by rfl

theorem MULAW_DECODE_TABLE_eq_spec (b : Nat) (hb : b < 256) :
    MULAW_DECODE_TABLE b = specMulawDecodeSample b := by
  have h := checkRange_sound decodeOK 10 0 256 decodeOK_all b hb
  simpa [decodeOK] using h

theorem segment_bound (mag : Nat) (hmag : mag ≤ 8191) :
    (((((mag + 33) / 2 ^ (specExponent (mag + 33) + 3) % 16 : Nat) : Int) * 8 + 132)
        * 2 ^ (specExponent (mag + 33)) - 132 - (mag : Int)).natAbs ≤ 226 := by
  unfold specExponent
  split_ifs with h1 h2 h3 h4 h5 h6 h7 <;> (norm_num; omega)

theorem spec_roundtrip_core (mag e m sign : Nat) (s : Int)
    (hmag : mag ≤ 8191)
    (he : e = specExponent (mag + 33)) (hm : m = (mag + 33) / 2 ^ (e + 3) % 16)
    (hs : (sign = 0 ∧ s = (mag : Int)) ∨ (sign = 128 ∧ s = -(mag : Int)) ∨
          (sign = 128 ∧ mag = 8191 ∧ s = -8192)) :
    (specMulawDecodeSample (255 - (sign + e * 16 + m)) - s).natAbs ≤ 226 := by
  have he6 : e ≤ 6 := by
    subst he
    unfold specExponent
    split_ifs <;> omega
  have hm15 : m ≤ 15 := by
    subst hm
    omega
  have hsign : sign = 0 ∨ sign = 128 := by
    rcases hs with ⟨h, _⟩ | ⟨h, _⟩ | ⟨h, _, _⟩ <;> simp [h]
  simp only [specMulawDecodeSample]
  have hmu : 255 - (255 - (sign + e * 16 + m)) = sign + e * 16 + m := by omega
  rw [hmu]
  have hdiv : (sign + e * 16 + m) / 16 % 8 = e := by
    rcases hsign with rfl | rfl <;> omega
  have hmod : (sign + e * 16 + m) % 16 = m := by omega
  rw [hdiv, hmod]
  have hcast : (((m * 8 + 132) * 2 ^ e : Nat) : Int)
      = ((m : Int) * 8 + 132) * 2 ^ e := by
    push_cast
    ring
  have hb : (((m : Int) * 8 + 132) * 2 ^ e - 132 - (mag : Int)).natAbs ≤ 226 := by
    subst hm
    subst he
    exact segment_bound mag hmag
  rcases hs with ⟨hsg, hsv⟩ | ⟨hsg, hsv⟩ | ⟨hsg, hmag', hsv⟩
  · subst hsg
    subst hsv
    rw [if_neg (by omega : ¬ (128 : Nat) ≤ 0 + e * 16 + m), hcast]
    omega
  · subst hsg
    subst hsv
    rw [if_pos (by omega : (128 : Nat) ≤ 128 + e * 16 + m), hcast]
    omega
  · subst hsg
    subst hmag'
    subst hsv
    have he' : e = 6 := by rw [he]; decide
    have hm' : m = 0 := by rw [hm, he']; decide
    subst he'
    subst hm'
    decide

theorem spec_roundtrip (s : Int) (h1 : -8192 ≤ s) (h2 : s ≤ 8191) :
    (specMulawDecodeSample (specLinearToMulaw s) - s).natAbs ≤ 226 := by
  simp only [specLinearToMulaw]
  apply spec_roundtrip_core (min s.natAbs 0x1FFF) _ _ _ s (by omega) rfl rfl
  rcases lt_or_le s 0 with h | h
  · by_cases h8 : s = -8192
    · right; right
      refine ⟨by simp [h], by omega, h8⟩
    · right; left
      refine ⟨by simp [h], by omega⟩
  · left
    refine ⟨by simp [not_lt.mpr h], by omega⟩

theorem roundtrip_sample (s : Int) (h1 : -8192 ≤ s) (h2 : s ≤ 8191) :
    (MULAW_DECODE_TABLE (MULAW_ENCODE_TABLE (s + 32768).toNat) - s).natAbs ≤ 226 := by
  have hidx : (((s + 32768).toNat : Int)) - 32768 = s := by omega
  have hbyte : specLinearToMulaw s < 256 := by
    simp only [specLinearToMulaw]
    omega
  unfold MULAW_ENCODE_TABLE
  rw [hidx, linearToMulaw_eq_spec, MULAW_DECODE_TABLE_eq_spec _ hbyte]
  exact spec_roundtrip s h1 h2

theorem getD_map_range {α : Type} (f : Nat → α) (n i : Nat) (d : α) (hi : i < n) :
    ((List.range n).map f).getD i d = f i := by
  rw [List.getD_eq_getElem?_getD, List.getElem?_map, List.getElem?_range hi]
  rfl

theorem getD_take (l : List Nat) (m i d : Nat) (hi : i < m) :
    (l.take m).getD i d = l.getD i d := by
  rw [List.getD_eq_getElem?_getD, List.getElem?_take_of_lt hi, ← List.getD_eq_getElem?_getD]

theorem readInt16LE_take (buf : List Nat) (m off : Nat) (h : off + 1 < m) :
    readInt16LE (buf.take m) off = readInt16LE buf off := by
  simp only [readInt16LE]
  rw [getD_take buf m off 0 (by omega), getD_take buf m (off + 1) 0 h]

theorem flatMap_pair_getD (g : Nat → List Nat)
    (hg : ∀ a, (g a).length = 2) :
    ∀ (l : List Nat) (i : Nat) (hi : i < l.length) (r d : Nat), r < 2 →
      (l.flatMap g).getD (2 * i + r) d = (g (l.get ⟨i, hi⟩)).getD r d := by
  intro l
  induction l with
  | nil =>
    intro i hi
    simp at hi
  | cons a t ih =>
    intro i hi r d hr
    cases i with
    | zero =>
      simp only [List.flatMap_cons, List.get]
      have h0 : 2 * 0 + r = r := by omega
      rw [h0]
      exact List.getD_append _ _ _ r (by rw [hg a]; omega)
    | succ j =>
      simp only [List.flatMap_cons, List.get]
      rw [List.getD_append_right _ _ _ _ (by rw [hg a]; omega)]
      have harith : 2 * (j + 1) + r - (g a).length = 2 * j + r := by rw [hg a]; omega
      rw [harith]
      exact ih j (by simpa using hi) r d hr

theorem flatMap_range_getD0 (g : Nat → List Nat) (hg : ∀ a, (g a).length = 2)
    (n i d : Nat) (hi : i < n) :
    ((List.range n).flatMap g).getD (2 * i) d = (g i).getD 0 d := by
  have h := flatMap_pair_getD g hg (List.range n) i (by simpa using hi) 0 d (by omega)
  simpa [List.get_range] using h

theorem flatMap_range_getD1 (g : Nat → List Nat) (hg : ∀ a, (g a).length = 2)
    (n i d : Nat) (hi : i < n) :
    ((List.range n).flatMap g).getD (2 * i + 1) d = (g i).getD 1 d := by
  have h := flatMap_pair_getD g hg (List.range n) i (by simpa using hi) 1 d (by omega)
  simpa [List.get_range] using h

/-- Reading sample `i` back out of a buffer assembled from 16-bit writes
recovers the written value when it is in the signed 16-bit range. -/
theorem readInt16LE_pairlist (v : Nat → Int) (n i : Nat) (hi : i < n)
    (hlo : -32768 ≤ v i) (hhi : v i ≤ 32767) :
    readInt16LE ((List.range n).flatMap (fun j => writeInt16LE (v j))) (2 * i) = v i := by
  have hg : ∀ j, (writeInt16LE (v j)).length = 2 := by
    intro j
    simp [writeInt16LE]
  simp only [readInt16LE]
  rw [flatMap_range_getD0 _ hg n i 0 hi, flatMap_range_getD1 _ hg n i 0 hi]
  simp only [writeInt16LE, List.getD_cons_zero, List.getD_cons_succ]
  have h65536 : (0 : Int) ≤ v i % 65536 := Int.emod_nonneg _ (by norm_num)
  have h65536' : v i % 65536 < 65536 := Int.emod_lt_of_pos _ (by norm_num)
  split <;> omega

/-- C2: `decode` and `encode` implement the companding law as described:
every decode-table entry equals the claim's per-byte formula (complement,
sign bit 7, exponent bits 6-4, mantissa bits 3-0, biased shifted magnitude);
`linearToMulaw` equals the claim's arithmetic form (absolute value, clip to
0x1FFF, bias 33, highest-set-bit exponent over the ladder, 4-bit mantissa at
shift exponent+3, recombine, complement); the 65536-entry encode table is
indexed by `sample + 32768`; and the buffer functions realize exactly these
per-sample functions. -/
theorem C2_companding_law :
    (∀ b, b < 256 → MULAW_DECODE_TABLE b = specMulawDecodeSample b)
    ∧ (∀ s : Int, linearToMulaw s = specLinearToMulaw s)
    ∧ (∀ idx, idx < 65536 → MULAW_ENCODE_TABLE idx = linearToMulaw ((idx : Int) - 32768))
    ∧ (∀ pcm i, i < pcm.length / 2 →
        (mulawEncode pcm).getD i 0
          = MULAW_ENCODE_TABLE ((readInt16LE pcm (2 * i) + 32768).toNat))
    ∧ (∀ mu, mulawDecode mu = mu.flatMap (fun b => writeInt16LE (MULAW_DECODE_TABLE b))) := by
  refine ⟨MULAW_DECODE_TABLE_eq_spec, linearToMulaw_eq_spec, fun _ _ => rfl, ?_, fun _ => rfl⟩
  intro pcm i hi
  exact getD_map_range _ _ i 0 hi

/-- Witness for C2 at concrete inputs. -/
theorem C2_companding_law_witness :
    MULAW_DECODE_TABLE 159 = specMulawDecodeSample 159
    ∧ linearToMulaw 1000 = specLinearToMulaw 1000
    ∧ MULAW_ENCODE_TABLE 40959 = linearToMulaw 8191
    ∧ (mulawEncode [255, 127]).getD 0 0
        = MULAW_ENCODE_TABLE ((readInt16LE [255, 127] 0 + 32768).toNat) := by
  refine ⟨C2_companding_law.1 159 (by decide), C2_companding_law.2.1 1000, ?_, ?_⟩
  · have h := C2_companding_law.2.2.1 40959 (by decide)
    simpa using h
  · exact C2_companding_law.2.2.2.1 [255, 127] 0 (by decide)

/-- C5 counterexample: the encoder clips magnitudes to 0x1FFF = 8191 while the
decode table reaches magnitude 32124, so for the full-scale sample 32767 the
round trip `decode(encode(pcm))` returns 8316 — a per-sample error of 24451,
far beyond "a few hundred units". -/
theorem C5_roundtrip_counterexample :
    readInt16LE [255, 127] 0 = 32767
    ∧ mulawDecode (mulawEncode [255, 127]) = [124, 32]
    ∧ readInt16LE (mulawDecode (mulawEncode [255, 127])) 0 = 8316
    ∧ 500 < (readInt16LE (mulawDecode (mulawEncode [255, 127])) 0
        - readInt16LE [255, 127] 0).natAbs := by
  refine ⟨rfl, rfl, rfl, by decide⟩

theorem decodeBoundOK_all : checkRange decodeBoundOK 10 0 256 = true := by rfl

theorem MULAW_DECODE_TABLE_range (b : Nat) (hb : b < 256) :
    -32768 ≤ MULAW_DECODE_TABLE b ∧ MULAW_DECODE_TABLE b ≤ 32767 := by
  have h := checkRange_sound decodeBoundOK 10 0 256 decodeBoundOK_all b hb
  simpa [decodeBoundOK] using h

/-- C5 amended: the round-trip bound holds on the sub-range the encoder can
represent — samples of magnitude at most the clip level 0x1FFF (8191, and
-8192 on the negative side): there the per-sample error of
`decode(encode(pcm))` is at most 226. -/
theorem C5_roundtrip_bound_amended :
    ∀ (pcm : List Nat) (i : Nat), i < pcm.length / 2 →
      -8192 ≤ readInt16LE pcm (2 * i) → readInt16LE pcm (2 * i) ≤ 8191 →
      (readInt16LE (mulawDecode (mulawEncode pcm)) (2 * i)
        - readInt16LE pcm (2 * i)).natAbs ≤ 226 := by
  intro pcm i hi hlo hhi
  have hcomp : mulawDecode (mulawEncode pcm)
      = (List.range (pcm.length / 2)).flatMap
          (fun j => writeInt16LE (MULAW_DECODE_TABLE
            (MULAW_ENCODE_TABLE ((readInt16LE pcm (2 * j) + 32768).toNat)))) := by
    unfold mulawDecode mulawEncode
    rw [List.flatMap_map]
  rw [hcomp]
  have hbyte : MULAW_ENCODE_TABLE ((readInt16LE pcm (2 * i) + 32768).toNat) < 256 := by
    simp only [MULAW_ENCODE_TABLE, linearToMulaw]
    omega
  have hrange := MULAW_DECODE_TABLE_range _ hbyte
  rw [readInt16LE_pairlist _ _ i hi hrange.1 hrange.2]
  exact roundtrip_sample _ hlo hhi

/-- Witness for C5 amended at a concrete buffer: the zero sample round-trips
to 32, within the bound. -/
theorem C5_roundtrip_bound_amended_witness :
    (0 : Nat) < [0, 0].length / 2
    ∧ (-8192 : Int) ≤ readInt16LE [0, 0] 0
    ∧ readInt16LE [0, 0] 0 ≤ 8191
    ∧ (readInt16LE (mulawDecode (mulawEncode [0, 0])) 0 - readInt16LE [0, 0] 0).natAbs ≤ 226 := by
  refine ⟨by decide, by decide, by decide, ?_⟩
  have h := C5_roundtrip_bound_amended [0, 0] 0 (by decide) (by decide) (by decide)
  simpa using h

/-- C3 counterexample: no codec operation signals an error on an odd byte
length; each processes `Math.floor(length / 2)` samples and silently ignores
the trailing byte.  `mulawEncode` maps a 3-byte buffer to 1 sample, the RMS of
`[0, 0, 9]` ignores the trailing 9 and is 0, and `resample` of a 3-byte buffer
interpolates the single leading sample. -/
theorem C3_odd_length_counterexample :
    (mulawEncode [0, 0, 0]).length = [0, 0, 0].length / 2
    ∧ mulawEncode [0, 0, 0] = [251]
    ∧ rmsSquared [0, 0, 9] = 0
    ∧ resample [0, 0, 7] 8000 16000 = [0, 0, 0, 0] := by
  refine ⟨rfl, rfl, ?_, ?_⟩
  · norm_num [rmsSquared, readInt16LE, List.range_succ]
  · norm_num [resample, resampleSampleAt, jsRound, readInt16LE, writeInt16LE,
      List.range_succ]
    decide

theorem resampleSampleAt_take (pcm : List Nat) (fromRate toRate i : Nat)
    (hn : 1 ≤ pcm.length / 2) :
    resampleSampleAt (pcm.take (2 * (pcm.length / 2))) fromRate toRate i
      = resampleSampleAt pcm fromRate toRate i := by
  have hsamp : (pcm.take (2 * (pcm.length / 2))).length / 2 = pcm.length / 2 := by
    rw [List.length_take]
    omega
  simp only [resampleSampleAt]
  rw [hsamp]
  set n := pcm.length / 2 with hn'
  set s := (⌊(i : ℚ) * ((fromRate : ℚ) / (toRate : ℚ))⌋).toNat with hs
  have h1 : readInt16LE (pcm.take (2 * n)) (min (s * 2) ((n - 1) * 2))
      = readInt16LE pcm (min (s * 2) ((n - 1) * 2)) :=
    readInt16LE_take pcm (2 * n) _ (by omega)
  have h2 : s + 1 < n →
      readInt16LE (pcm.take (2 * n)) ((s + 1) * 2) = readInt16LE pcm ((s + 1) * 2) := by
    intro h
    exact readInt16LE_take pcm (2 * n) _ (by omega)
  rw [h1]
  by_cases hc : s + 1 < n
  · rw [if_pos hc, if_pos hc, h2 hc]
  · rw [if_neg hc, if_neg hc]

/-- C3 amended: for every buffer (odd lengths included) the CodecEngine
operations process exactly `Math.floor(length / 2)` 16-bit samples and their
result only depends on those bytes — a trailing odd byte is silently dropped,
never rejected. -/
theorem C3_truncation_amended :
    ∀ (pcm : List Nat),
      (mulawEncode pcm).length = pcm.length / 2
      ∧ mulawEncode pcm = mulawEncode (pcm.take (2 * (pcm.length / 2)))
      ∧ rmsSquared pcm = rmsSquared (pcm.take (2 * (pcm.length / 2)))
      ∧ ∀ fromRate toRate, fromRate ≠ toRate →
          resample pcm fromRate toRate
            = resample (pcm.take (2 * (pcm.length / 2))) fromRate toRate := by
  intro pcm
  have hlen : (pcm.take (2 * (pcm.length / 2))).length = 2 * (pcm.length / 2) := by
    rw [List.length_take]
    omega
  have hsamp : (pcm.take (2 * (pcm.length / 2))).length / 2 = pcm.length / 2 := by
    rw [hlen]
    omega
  have hread : ∀ i, i < pcm.length / 2 →
      readInt16LE (pcm.take (2 * (pcm.length / 2))) (2 * i) = readInt16LE pcm (2 * i) := by
    intro i hi
    exact readInt16LE_take pcm (2 * (pcm.length / 2)) (2 * i) (by omega)
  refine ⟨by simp [mulawEncode], ?_, ?_, ?_⟩
  · unfold mulawEncode
    rw [hsamp]
    refine List.map_congr_left ?_
    intro a ha
    rw [hread a (by simpa using ha)]
  · simp only [rmsSquared]
    rw [hsamp]
    have : ∀ a ∈ List.range (pcm.length / 2),
        readInt16LE (pcm.take (2 * (pcm.length / 2))) (2 * a)
          * readInt16LE (pcm.take (2 * (pcm.length / 2))) (2 * a)
        = readInt16LE pcm (2 * a) * readInt16LE pcm (2 * a) := by
      intro a ha
      rw [hread a (by simpa using ha)]
    rw [List.map_congr_left this]
  · intro fromRate toRate hne
    unfold resample
    rw [if_neg hne, if_neg hne, hsamp]
    by_cases hn : pcm.length / 2 = 0
    · simp [hn]
    · have hkey : ∀ j, resampleSampleAt (pcm.take (2 * (pcm.length / 2))) fromRate toRate j
          = resampleSampleAt pcm fromRate toRate j := by
        intro j
        exact resampleSampleAt_take pcm fromRate toRate j (by omega)
      have : (fun j => writeInt16LE (resampleSampleAt pcm fromRate toRate j))
          = fun j => writeInt16LE
              (resampleSampleAt (pcm.take (2 * (pcm.length / 2))) fromRate toRate j) := by
        funext j
        rw [hkey j]
      rw [this]

/-- Witness for C3 amended at a concrete odd-length buffer. -/
theorem C3_truncation_amended_witness :
    (mulawEncode [0, 0, 0]).length = [0, 0, 0].length / 2
    ∧ (8000 : Nat) ≠ 16000
    ∧ resample [0, 0, 0] 8000 16000
        = resample ([0, 0, 0].take (2 * ([0, 0, 0].length / 2))) 8000 16000 :=
  ⟨(C3_truncation_amended [0, 0, 0]).1, by decide,
    (C3_truncation_amended [0, 0, 0]).2.2.2 8000 16000 (by decide)⟩

theorem resample_out_count (n f t : Nat) (hf : 0 < f) (ht : 0 < t) :
    (⌊(n : ℚ) / ((f : ℚ) / (t : ℚ))⌋).toNat = n * t / f := by
  rw [Int.floor_toNat]
  have h : (n : ℚ) / ((f : ℚ) / (t : ℚ)) = ((n * t : Nat) : ℚ) / ((f : Nat) : ℚ) := by
    rw [div_div_eq_mul_div]
    push_cast
    ring
  rw [h, Nat.floor_div_nat, Nat.floor_natCast]

theorem srcIndex_lt (n f t i : Nat) (hf : 0 < f) (ht : 0 < t) (hi : i < n * t / f) :
    (⌊(i : ℚ) * ((f : ℚ) / (t : ℚ))⌋).toNat < n := by
  have hr : (0 : ℚ) < (f : ℚ) / (t : ℚ) := by positivity
  have hout : ((n * t / f : Nat) : ℚ) * ((f : ℚ) / (t : ℚ)) ≤ (n : ℚ) := by
    have h1 : ((n * t / f : Nat) : ℚ) ≤ (n : ℚ) / ((f : ℚ) / (t : ℚ)) := by
      rw [div_div_eq_mul_div]
      calc ((n * t / f : Nat) : ℚ) ≤ ((n * t : Nat) : ℚ) / ((f : Nat) : ℚ) :=
            Nat.cast_div_le
        _ = (n : ℚ) * (t : ℚ) / (f : ℚ) := by push_cast; ring
    calc ((n * t / f : Nat) : ℚ) * ((f : ℚ) / (t : ℚ))
        ≤ ((n : ℚ) / ((f : ℚ) / (t : ℚ))) * ((f : ℚ) / (t : ℚ)) :=
          mul_le_mul_of_nonneg_right h1 hr.le
      _ = (n : ℚ) := div_mul_cancel₀ _ (ne_of_gt hr)
  have hi' : (i : ℚ) + 1 ≤ ((n * t / f : Nat) : ℚ) := by
    have : (i + 1 : Nat) ≤ n * t / f := hi
    exact_mod_cast this
  have h2 : (i : ℚ) * ((f : ℚ) / (t : ℚ)) < (n : ℚ) := by
    have h3 : ((i : ℚ) + 1) * ((f : ℚ) / (t : ℚ)) ≤ (n : ℚ) := by
      calc ((i : ℚ) + 1) * ((f : ℚ) / (t : ℚ))
          ≤ ((n * t / f : Nat) : ℚ) * ((f : ℚ) / (t : ℚ)) :=
            mul_le_mul_of_nonneg_right hi' hr.le
        _ ≤ (n : ℚ) := hout
    nlinarith
  have h4 : ⌊(i : ℚ) * ((f : ℚ) / (t : ℚ))⌋ < (n : ℤ) := Int.floor_lt.mpr (by exact_mod_cast h2)
  have h5 : 0 ≤ ⌊(i : ℚ) * ((f : ℚ) / (t : ℚ))⌋ := Int.floor_nonneg.mpr (by positivity)
  omega

theorem resampleSampleAt_eq_spec (pcm : List Nat) (f t i : Nat)
    (hlo : (⌊(i : ℚ) * ((f : ℚ) / (t : ℚ))⌋).toNat < pcm.length / 2) :
    resampleSampleAt pcm f t i = specResampleSampleAt pcm f t i := by
  simp only [resampleSampleAt, specResampleSampleAt]
  have hp0 : (0 : ℚ) ≤ (i : ℚ) * ((f : ℚ) / (t : ℚ)) := by positivity
  set p : ℚ := (i : ℚ) * ((f : ℚ) / (t : ℚ)) with hpdef
  set lo := (⌊p⌋).toNat with hlodef
  set n := pcm.length / 2 with hndef
  have hmin : min (lo * 2) ((n - 1) * 2) = lo * 2 := by omega
  rw [hmin]
  by_cases hfrac : p - (lo : ℚ) = 0
  · have harg : ∀ x y : Int,
        (x : ℚ) * (1 - (p - (lo : ℚ))) + (y : ℚ) * (p - (lo : ℚ)) = (x : ℚ) := by
      intro x y
      rw [hfrac]
      ring
    rw [harg, harg]
  · have hfl : ((⌊p⌋).toNat : Int) = ⌊p⌋ := Int.toNat_of_nonneg (Int.floor_nonneg.mpr hp0)
    have hQ : ((lo : Nat) : ℚ) = ((⌊p⌋ : Int) : ℚ) := by
      rw [hlodef]
      exact_mod_cast congrArg (fun z : Int => (z : ℚ)) hfl
    have hle : ((lo : ℚ)) ≤ p := by
      rw [hQ]
      exact Int.floor_le p
    have hlt : ((lo : ℚ)) < p :=
      lt_of_le_of_ne hle (fun h => hfrac (by rw [← h]; ring))
    have hceil : (⌈p⌉).toNat = lo + 1 := by
      have hup : ⌈p⌉ ≤ ⌊p⌋ + 1 := Int.ceil_le_floor_add_one p
      have hdn : ⌊p⌋ + 1 ≤ ⌈p⌉ := by
        have h1 : ((⌊p⌋ : Int) : ℚ) < ((⌈p⌉ : Int) : ℚ) := by
          rw [← hQ]
          exact lt_of_lt_of_le hlt (Int.le_ceil p)
        have h2 : ⌊p⌋ < ⌈p⌉ := by exact_mod_cast h1
        omega
      have hfl0 : 0 ≤ ⌊p⌋ := Int.floor_nonneg.mpr hp0
      omega
    rw [hceil]
    by_cases hc : lo + 1 < n
    · rw [if_pos hc, if_pos hc]
    · rw [if_neg hc, if_neg hc]
      have hlon : lo = n - 1 := by omega
      rw [hlon]

theorem flatMap_range_congr {β : Type} (n : Nat) (g h : Nat → List β)
    (hgh : ∀ j, j < n → g j = h j) :
    (List.range n).flatMap g = (List.range n).flatMap h := by
  rw [List.flatMap_def, List.flatMap_def]
  refine congrArg List.flatten (List.map_congr_left ?_)
  intro a ha
  exact hgh a (by simpa using ha)

/-- C6: `resample` is the identity on equal rates and otherwise equals the
claim's description — `floor(inputSamples/ratio) = inputSamples*toRate/fromRate`
output samples, each the rounded, clamped linear interpolation between the
input samples at the floor and ceil of `i*ratio`, duplicating the last input
sample when the ceil index is past the end; the second conjunct restates the
output length in bytes. -/
theorem C6_resample_matches_spec :
    ∀ (pcm : List Nat) (fromRate toRate : Nat), 0 < fromRate → 0 < toRate →
      resample pcm fromRate toRate = specResample pcm fromRate toRate
      ∧ (fromRate ≠ toRate →
          (resample pcm fromRate toRate).length
            = 2 * (pcm.length / 2 * toRate / fromRate)) := by
  intro pcm f t hf ht
  have heq : resample pcm f t = specResample pcm f t := by
    by_cases hne : f = t
    · subst hne
      simp [resample, specResample]
    · simp only [resample, specResample, if_neg hne]
      rw [resample_out_count (pcm.length / 2) f t hf ht]
      refine flatMap_range_congr _ _ _ ?_
      intro j hj
      rw [resampleSampleAt_eq_spec pcm f t j (srcIndex_lt (pcm.length / 2) f t j hf ht hj)]
  refine ⟨heq, ?_⟩
  intro hne
  rw [heq]
  simp only [specResample, if_neg hne]
  rw [List.length_flatMap]
  have hmap : List.map (List.length ∘ fun i => writeInt16LE (specResampleSampleAt pcm f t i))
      (List.range (pcm.length / 2 * t / f))
      = List.map (fun _ => 2) (List.range (pcm.length / 2 * t / f)) := by
    refine List.map_congr_left ?_
    intro a _
    simp [writeInt16LE]
  rw [hmap, List.map_const', List.sum_replicate, smul_eq_mul, List.length_range]
  omega

/-- Witness for C6 at a concrete buffer and rates (8 kHz to 16 kHz). -/
theorem C6_resample_matches_spec_witness :
    (0 : Nat) < 8000 ∧ (0 : Nat) < 16000
    ∧ resample [0, 0, 100, 0] 8000 16000 = specResample [0, 0, 100, 0] 8000 16000 :=
  ⟨by decide, by decide,
    (C6_resample_matches_spec [0, 0, 100, 0] 8000 16000 (by decide) (by decide)).1⟩

theorem pushSeq_state (ps : List (Nat × List Nat)) : ∀ (b : AudioBuffer),
    (pushSeq b ps).chunks = b.chunks ++ ps.map Prod.snd
    ∧ (pushSeq b ps).totalBytes = b.totalBytes + (ps.map (fun p => p.2.length)).sum
    ∧ (pushSeq b ps).targetMs = b.targetMs
    ∧ (pushSeq b ps).sampleRate = b.sampleRate := by
  induction ps with
  | nil => intro b; simp [pushSeq]
  | cons p t ih =>
    intro b
    have h := ih (b.push p.1 p.2)
    simp only [pushSeq, List.foldl_cons] at h ⊢
    refine ⟨?_, ?_, ?_, ?_⟩
    · rw [h.1]
      simp [AudioBuffer.push]
    · rw [h.2.1]
      simp [AudioBuffer.push]
      omega
    · rw [h.2.2.1]
      rfl
    · rw [h.2.2.2]
      rfl

/-- C7: `isReady()` is true exactly when the accumulated bytes meet
`targetBytes`, or a first pending chunk was recorded at least `maxMs` ago and
at least one byte is pending; in particular reaching the byte target exactly
(also via any sequence of pushes) makes it ready immediately, independent of
the clock. -/
theorem C7_isReady_iff :
    ∀ (b : AudioBuffer) (now : Nat),
      (b.isReady now = true ↔
        b.targetBytes ≤ b.totalBytes ∨
          ∃ t0, b.firstChunkTime = some t0 ∧ b.maxMs ≤ now - t0 ∧ 1 ≤ b.totalBytes)
      ∧ (b.totalBytes = b.targetBytes → b.isReady now = true)
      ∧ (∀ (ps : List (Nat × List Nat)),
          (ps.map (fun p => p.2.length)).sum = b.targetBytes →
          (pushSeq (AudioBuffer.init b.targetMs b.sampleRate) ps).isReady now = true) := by
  intro b now
  have hmain : b.isReady now = true ↔
      b.targetBytes ≤ b.totalBytes ∨
        ∃ t0, b.firstChunkTime = some t0 ∧ b.maxMs ≤ now - t0 ∧ 1 ≤ b.totalBytes := by
    unfold AudioBuffer.isReady
    by_cases hbytes : b.targetBytes ≤ b.totalBytes
    · simp [hbytes]
    · rw [if_neg hbytes]
      cases hfc : b.firstChunkTime with
      | none => simp [hbytes]
      | some t0 =>
        by_cases hdl : b.maxMs ≤ now - t0
        · simp only [if_pos hdl, decide_eq_true_eq]
          constructor
          · intro h
            exact Or.inr ⟨t0, rfl, hdl, h⟩
          · rintro (h | ⟨t1, ht1, _, hb⟩)
            · omega
            · cases ht1
              omega
        · simp only [if_neg hdl]
          constructor
          · intro h
            cases h
          · rintro (h | ⟨t1, ht1, hd, _⟩)
            · omega
            · cases ht1
              exact absurd hd hdl
  refine ⟨hmain, ?_, ?_⟩
  · intro h
    rw [hmain]
    exact Or.inl (by omega)
  · intro ps hsum
    have hst := pushSeq_state ps (AudioBuffer.init b.targetMs b.sampleRate)
    have htgt : (pushSeq (AudioBuffer.init b.targetMs b.sampleRate) ps).targetBytes
        = b.targetBytes := by
      unfold AudioBuffer.targetBytes AudioBuffer.bytesPerMs
      rw [hst.2.2.1, hst.2.2.2]
      rfl
    have htot : (pushSeq (AudioBuffer.init b.targetMs b.sampleRate) ps).totalBytes
        = b.targetBytes := by
      rw [hst.2.1]
      simpa [AudioBuffer.init] using hsum
    unfold AudioBuffer.isReady
    rw [htgt, htot]
    simp

/-- Witness for C7: a fresh 200 ms / 8 kHz buffer (targetBytes = 1600) becomes
ready exactly when one 1600-byte chunk arrives. -/
theorem C7_isReady_iff_witness :
    ((AudioBuffer.init 200 8000).push 5 (List.replicate 1600 0)).totalBytes
      = ((AudioBuffer.init 200 8000).push 5 (List.replicate 1600 0)).targetBytes
    ∧ ((AudioBuffer.init 200 8000).push 5 (List.replicate 1600 0)).isReady 6 = true := by
  have htb : ((AudioBuffer.init 200 8000).push 5 (List.replicate 1600 0)).totalBytes
      = ((AudioBuffer.init 200 8000).push 5 (List.replicate 1600 0)).targetBytes := by
    unfold AudioBuffer.targetBytes AudioBuffer.bytesPerMs
    norm_num [AudioBuffer.push, AudioBuffer.init]
    decide
  exact ⟨htb, (C7_isReady_iff ((AudioBuffer.init 200 8000).push 5 (List.replicate 1600 0)) 6).2.1 htb⟩

/-- C8: after any sequence of pushes into a fresh buffer, `flush()` returns
exactly the pushed fragments concatenated in arrival order — none duplicated
or dropped — and resets the state to the freshly-constructed one; with nothing
pending it returns `none` and leaves the state unchanged. -/
theorem C8_flush_concat_reset :
    ∀ (targetMs sampleRate : Nat) (ps : List (Nat × List Nat)),
      (ps = [] →
        (pushSeq (AudioBuffer.init targetMs sampleRate) ps).flush
          = (none, pushSeq (AudioBuffer.init targetMs sampleRate) ps))
      ∧ (ps ≠ [] →
        (pushSeq (AudioBuffer.init targetMs sampleRate) ps).flush
          = (some (ps.map Prod.snd).flatten, AudioBuffer.init targetMs sampleRate)) := by
  intro t s ps
  have hst := pushSeq_state ps (AudioBuffer.init t s)
  constructor
  · intro hempty
    subst hempty
    simp [pushSeq, AudioBuffer.flush, AudioBuffer.init]
  · intro hne
    have hch : (pushSeq (AudioBuffer.init t s) ps).chunks = ps.map Prod.snd := by
      rw [hst.1]
      simp [AudioBuffer.init]
    have hnonempty : ¬ (pushSeq (AudioBuffer.init t s) ps).chunks.isEmpty = true := by
      rw [hch]
      cases ps with
      | nil => exact absurd rfl hne
      | cons a l => simp
    unfold AudioBuffer.flush
    rw [if_neg hnonempty, hch]
    have h1 : { pushSeq (AudioBuffer.init t s) ps with
        chunks := ([] : List (List Nat)), totalBytes := 0,
        firstChunkTime := (none : Option Nat) } = AudioBuffer.init t s := by
      have h0 : { pushSeq (AudioBuffer.init t s) ps with
          chunks := ([] : List (List Nat)), totalBytes := 0,
          firstChunkTime := (none : Option Nat) }
          = AudioBuffer.init (pushSeq (AudioBuffer.init t s) ps).targetMs
              (pushSeq (AudioBuffer.init t s) ps).sampleRate := rfl
      rw [h0, hst.2.2.1, hst.2.2.2]
      rfl
    rw [h1]

/-- Witness for C8 at two concrete pushes and at the empty sequence. -/
theorem C8_flush_concat_reset_witness :
    (pushSeq (AudioBuffer.init 200 8000) [(1, [7]), (2, [8, 9])]).flush
        = (some [7, 8, 9], AudioBuffer.init 200 8000)
    ∧ (pushSeq (AudioBuffer.init 200 8000) []).flush
        = (none, pushSeq (AudioBuffer.init 200 8000) []) := by
  constructor
  · have h := (C8_flush_concat_reset 200 8000 [(1, [7]), (2, [8, 9])]).2 (by decide)
    simpa using h
  · exact (C8_flush_concat_reset 200 8000 []).1 rfl

theorem suffixWindow_step (l : List Nat) (m w : Nat) :
    pushWindow w (suffixWindow l w) (suffixWindow l w).sum m
      = (suffixWindow (l ++ [m]) w, (suffixWindow (l ++ [m]) w).sum) := by
  unfold pushWindow suffixWindow
  have hlen : (l.drop (l.length - w)).length = l.length - (l.length - w) :=
    List.length_drop _ _
  by_cases hc : l.length + 1 ≤ w
  · have hz : l.length - w = 0 := by omega
    have hz' : (l ++ [m]).length - w = 0 := by
      simp only [List.length_append, List.length_cons, List.length_nil]
      omega
    rw [hz, hz']
    simp only [List.drop_zero]
    rw [if_neg (by simp; omega)]
    simp [List.sum_append]
  · by_cases hw : w = 0
    · subst hw
      have h1 : l.length - 0 = l.length := by omega
      have h2 : (l ++ [m]).length - 0 = l.length + 1 := by simp
      rw [h1, h2]
      have h3 : l.drop l.length = [] := by simp
      rw [h3]
      have h4 : (l ++ [m]).drop (l.length + 1) = [] := by
        apply List.drop_eq_nil_of_le
        simp
      rw [h4]
      simp
    · -- 1 ≤ w ≤ l.length
      have hwl : w ≤ l.length := by omega
      have hne : l.drop (l.length - w) ≠ [] := by
        intro h
        have := congrArg List.length h
        rw [hlen] at this
        simp at this
        omega
      rw [if_pos (by simp [hlen]; omega)]
      rcases hds : l.drop (l.length - w) with _ | ⟨a, r⟩
      · exact absurd hds hne
      · have htail : (a :: r) ++ [m] = a :: (r ++ [m]) := rfl
        have hdrop1 : (l.drop (l.length - w)).tail = l.drop (l.length - w + 1) :=
          List.tail_drop l (l.length - w)
        have happ : (l ++ [m]).drop ((l ++ [m]).length - w) = r ++ [m] := by
          have hidx : (l ++ [m]).length - w = (l.length - w) + 1 := by
            simp only [List.length_append, List.length_cons, List.length_nil]
            omega
          rw [hidx, List.drop_append_of_le_length (by omega)]
          rw [← hdrop1, hds]
          rfl
        rw [happ, htail]
        simp only [List.tail_cons, List.headD_cons]
        have hsum : (a :: r).sum + m - a = (r ++ [m]).sum := by
          simp [List.sum_append, List.sum_cons]
          omega
        rw [hsum]

theorem record_inv (t : LatencyTracker) (hist : List (Nat × String)) (ms : Nat) (st : String)
    (h : TrackerInv t hist) : TrackerInv (t.record ms st) (hist ++ [(ms, st)]) := by
  obtain ⟨h1, h2, h3, h4⟩ := h
  have hg : pushWindow t.windowSize t.samples t.runningSum ms
      = (suffixWindow ((hist ++ [(ms, st)]).map Prod.fst) t.windowSize,
         (suffixWindow ((hist ++ [(ms, st)]).map Prod.fst) t.windowSize).sum) := by
    rw [h2, h1, suffixWindow_step]
    simp [List.map_append]
  unfold TrackerInv
  simp only [LatencyTracker.record]
  refine ⟨?_, ?_, ?_, ?_⟩
  · rw [hg]
  · rw [hg]
  · rw [h3]
    simp
  · intro name
    obtain ⟨s1, s2, s3⟩ := h4 name
    by_cases hname : name = st
    · subst hname
      have hfl : (hist ++ [(ms, name)]).filter (fun p => p.2 = name)
          = hist.filter (fun p => p.2 = name) ++ [(ms, name)] := by
        rw [List.filter_append]
        simp
      have hp : pushWindow t.windowSize (t.stages name).samples (t.stages name).sum ms
          = (suffixWindow (((hist ++ [(ms, name)]).filter
                (fun p => p.2 = name)).map Prod.fst) t.windowSize,
             (suffixWindow (((hist ++ [(ms, name)]).filter
                (fun p => p.2 = name)).map Prod.fst) t.windowSize).sum) := by
        rw [s2, s1, suffixWindow_step, hfl]
        simp [List.map_append]
      rw [if_pos rfl]
      refine ⟨?_, ?_, ?_⟩
      · show (pushWindow t.windowSize (t.stages name).samples (t.stages name).sum ms).1 = _
        rw [hp]
      · show (pushWindow t.windowSize (t.stages name).samples (t.stages name).sum ms).2
            = (pushWindow t.windowSize (t.stages name).samples (t.stages name).sum ms).1.sum
        rw [hp]
      · show (t.stages name).count + 1 = _
        rw [s3, hfl]
        simp
    · have hfl : (hist ++ [(ms, st)]).filter (fun p => p.2 = name)
          = hist.filter (fun p => p.2 = name) := by
        rw [List.filter_append]
        have : ((ms, st).2 = name) = False := by
          simp
          exact fun hcon => absurd hcon.symm hname
        simp [this]
      rw [if_neg hname, hfl]
      exact ⟨s1, s2, s3⟩

theorem recordAll_inv (ps : List (Nat × String)) : ∀ (t : LatencyTracker)
    (hist : List (Nat × String)), TrackerInv t hist →
    TrackerInv (recordAll t ps) (hist ++ ps) := by
  induction ps with
  | nil =>
    intro t hist h
    simpa [recordAll] using h
  | cons p rest ih =>
    intro t hist h
    have h1 := record_inv t hist p.1 p.2 h
    have h2 := ih (t.record p.1 p.2) (hist ++ [(p.1, p.2)]) h1
    simp only [recordAll, List.foldl_cons] at h2 ⊢
    simpa [List.append_assoc] using h2

theorem trackerInv_init (w : Nat) : TrackerInv (LatencyTracker.init w) [] := by
  refine ⟨?_, rfl, rfl, ?_⟩
  · simp [LatencyTracker.init, suffixWindow]
  · intro name
    refine ⟨?_, rfl, rfl⟩
    simp [LatencyTracker.init, suffixWindow]

/-- C10: after any sequence of `record` calls on a fresh tracker, the global
window and every stage window hold exactly the most recent `windowSize`
samples (the drop-suffix of the history), at most `windowSize` of them, with
the running sums equal to the sums of exactly the retained samples; stage
counts and `totalSamples` count every sample ever recorded, and (for a
non-degenerate capacity) `getMetrics().count` reports that total, which can
exceed the window capacity. -/
theorem C10_rolling_window :
    ∀ (w : Nat) (ps : List (Nat × String)),
      (recordAll (LatencyTracker.init w) ps).samples
          = (ps.map Prod.fst).drop (ps.length - w)
      ∧ (recordAll (LatencyTracker.init w) ps).samples.length ≤ w
      ∧ (recordAll (LatencyTracker.init w) ps).runningSum
          = (recordAll (LatencyTracker.init w) ps).samples.sum
      ∧ (recordAll (LatencyTracker.init w) ps).totalSamples = ps.length
      ∧ (0 < w → ((recordAll (LatencyTracker.init w) ps).getMetrics).count = ps.length)
      ∧ ∀ name,
          ((recordAll (LatencyTracker.init w) ps).stages name).samples
              = ((ps.filter (fun p => p.2 = name)).map Prod.fst).drop
                  ((ps.filter (fun p => p.2 = name)).length - w)
          ∧ ((recordAll (LatencyTracker.init w) ps).stages name).samples.length ≤ w
          ∧ ((recordAll (LatencyTracker.init w) ps).stages name).sum
              = ((recordAll (LatencyTracker.init w) ps).stages name).samples.sum
          ∧ ((recordAll (LatencyTracker.init w) ps).stages name).count
              = (ps.filter (fun p => p.2 = name)).length := by
  intro w ps
  have hinv := recordAll_inv ps (LatencyTracker.init w) [] (trackerInv_init w)
  rw [List.nil_append] at hinv
  obtain ⟨h1, h2, h3, h4⟩ := hinv
  have hw : (recordAll (LatencyTracker.init w) ps).windowSize = w := by
    have : ∀ (qs : List (Nat × String)) (t : LatencyTracker),
        (recordAll t qs).windowSize = t.windowSize := by
      intro qs
      induction qs with
      | nil => intro t; rfl
      | cons q rest ih =>
        intro t
        simp only [recordAll, List.foldl_cons] at ih ⊢
        exact ih (t.record q.1 q.2)
    exact this ps (LatencyTracker.init w)
  rw [hw] at h1
  have hlenmap : (ps.map Prod.fst).length = ps.length := List.length_map _ _
  refine ⟨?_, ?_, h2, h3, ?_, ?_⟩
  · rw [h1]
    unfold suffixWindow
    rw [hlenmap]
  · rw [h1]
    unfold suffixWindow
    rw [List.length_drop]
    omega
  · intro hwpos
    unfold LatencyTracker.getMetrics
    by_cases hz : (recordAll (LatencyTracker.init w) ps).samples.length = 0
    · rw [if_pos hz]
      have : ps.length = 0 := by
        rw [h1] at hz
        unfold suffixWindow at hz
        rw [List.length_drop] at hz
        omega
      simp [this]
    · rw [if_neg hz]
      exact h3
  · intro name
    obtain ⟨s1, s2, s3⟩ := h4 name
    rw [hw] at s1
    have hfillen : ((ps.filter (fun p => p.2 = name)).map Prod.fst).length
        = (ps.filter (fun p => p.2 = name)).length := List.length_map _ _
    refine ⟨?_, ?_, s2, s3⟩
    · rw [s1]
      unfold suffixWindow
      rw [hfillen]
    · rw [s1]
      unfold suffixWindow
      rw [List.length_drop]
      omega

/-- Witness for C10: three samples into a window of capacity 2 keep the last
two, sum 5, while the metrics count reports all three. -/
theorem C10_rolling_window_witness :
    (recordAll (LatencyTracker.init 2) [(1, "total"), (2, "total"), (3, "total")]).samples
        = [2, 3]
    ∧ (0 : Nat) < 2
    ∧ ((recordAll (LatencyTracker.init 2)
        [(1, "total"), (2, "total"), (3, "total")]).getMetrics).count = 3 := by
  have h := C10_rolling_window 2 [(1, "total"), (2, "total"), (3, "total")]
  refine ⟨?_, by decide, h.2.2.2.2.1 (by decide)⟩
  rw [h.1]
  decide

theorem bridge_inv (s : Bridge) (h : BridgeReachable s) :
    s.loops = (if s.isProcessing then 1 else 0)
    ∧ s.sent ++ s.queue = s.arrived := by
  induction h with
  | refl => exact ⟨rfl, rfl⟩
  | @tail b c hr hstep ih =>
    obtain ⟨ih1, ih2⟩ := ih
    cases hstep with
    | connectTwilio =>
      exact ⟨ih1, ih2⟩
    | arriveStart c hproc htw =>
      refine ⟨?_, ?_⟩
      · show b.loops + 1 = _
        rw [ih1, hproc]
        simp
      · show b.sent ++ (b.queue ++ [c]) = b.arrived ++ [c]
        rw [← List.append_assoc, ih2]
    | arriveQueue c hside =>
      refine ⟨ih1, ?_⟩
      show b.sent ++ (b.queue ++ [c]) = b.arrived ++ [c]
      rw [← List.append_assoc, ih2]
    | drainChunk c rest hl hq =>
      refine ⟨ih1, ?_⟩
      show (b.sent ++ [c]) ++ rest = b.arrived
      rw [← ih2, hq]
      simp
    | drainDone hl hq =>
      refine ⟨?_, ?_⟩
      · show b.loops - 1 = _
        rw [ih1]
        split <;> simp
      · show b.sent ++ b.queue = b.arrived
        exact ih2

/-- C4: in every reachable bridge state, at most one drain loop runs (exactly
one when `isProcessing` is set, none otherwise), and the chunks forwarded so
far followed by the chunks still queued are exactly the arrival history in
order — so forwarding is strictly in arrival order even as new chunks queue
during a running drain loop. -/
theorem C4_single_drain_arrival_order :
    ∀ s, BridgeReachable s →
      s.loops ≤ 1
      ∧ s.loops = (if s.isProcessing then 1 else 0)
      ∧ s.sent ++ s.queue = s.arrived := by
  intro s h
  obtain ⟨h1, h2⟩ := bridge_inv s h
  refine ⟨?_, h1, h2⟩
  rw [h1]
  split <;> omega

theorem bridgeWitnessState_reachable : BridgeReachable bridgeWitnessState := by
  have h1 : BridgeReachable ⟨[], false, 0, [], [], true⟩ :=
    Relation.ReflTransGen.single (BridgeStep.connectTwilio Bridge.start)
  have h2 : BridgeReachable ⟨[5], true, 1, [], [5], true⟩ :=
    h1.tail (BridgeStep.arriveStart ⟨[], false, 0, [], [], true⟩ 5 rfl rfl)
  have h3 : BridgeReachable ⟨[], true, 1, [5], [5], true⟩ :=
    h2.tail (BridgeStep.drainChunk ⟨[5], true, 1, [], [5], true⟩ 5 [] (by decide) rfl)
  exact h3.tail (BridgeStep.arriveQueue ⟨[], true, 1, [5], [5], true⟩ 6 (Or.inl rfl))

/-- Witness for C4 at the concrete reachable state. -/
theorem C4_single_drain_arrival_order_witness :
    bridgeWitnessState.loops ≤ 1
    ∧ bridgeWitnessState.loops = (if bridgeWitnessState.isProcessing then 1 else 0)
    ∧ bridgeWitnessState.sent ++ bridgeWitnessState.queue = bridgeWitnessState.arrived :=
  C4_single_drain_arrival_order bridgeWitnessState bridgeWitnessState_reachable

theorem queuedOnlyState_reachable : BridgeReachable queuedOnlyState :=
  Relation.ReflTransGen.single
    (BridgeStep.arriveQueue Bridge.start 7 (Or.inr rfl))

/-- C9 counterexample: there is no DRAINING phase — `removeBridge` empties the
queue and clears the processing flag without forwarding anything, so the
queued chunk 7 is discarded at teardown rather than flushed through the
pipeline: afterwards nothing was ever sent although chunk 7 had arrived. -/
theorem C9_teardown_counterexample :
    BridgeReachable queuedOnlyState
    ∧ queuedOnlyState.queue = [7]
    ∧ (removeBridge queuedOnlyState).queue = []
    ∧ (removeBridge queuedOnlyState).sent = []
    ∧ queuedOnlyState.arrived = [7]
    ∧ (removeBridge queuedOnlyState).sent ≠ queuedOnlyState.arrived :=
  ⟨queuedOnlyState_reachable, rfl, rfl, rfl, rfl, by decide⟩

/-- C9 amended: on closure `removeBridge` immediately clears the queue and the
processing flag and forwards nothing — the chunks delivered stay exactly those
sent before teardown, and the discarded chunks are exactly the
arrived-but-unsent remainder of the queue. -/
theorem C9_teardown_discards_queue :
    ∀ s, BridgeReachable s →
      (removeBridge s).queue = []
      ∧ (removeBridge s).isProcessing = false
      ∧ (removeBridge s).sent = s.sent
      ∧ (removeBridge s).sent ++ s.queue = s.arrived := by
  intro s h
  obtain ⟨_, h2⟩ := bridge_inv s h
  exact ⟨rfl, rfl, rfl, h2⟩

/-- Witness for C9 amended at the queued-only reachable state. -/
theorem C9_teardown_discards_queue_witness :
    (removeBridge queuedOnlyState).queue = []
    ∧ (removeBridge queuedOnlyState).isProcessing = false
    ∧ (removeBridge queuedOnlyState).sent = queuedOnlyState.sent
    ∧ (removeBridge queuedOnlyState).sent ++ queuedOnlyState.queue
        = queuedOnlyState.arrived :=
  C9_teardown_discards_queue queuedOnlyState queuedOnlyState_reachable

/-- C1 counterexample: on the empty-result path the claim fails — a
successful API response with an empty body makes `transform` return the empty
buffer, not the original input (the caller in media-stream.js then drops the
chunk instead of continuing with unmodified audio). -/
theorem C1_transform_counterexample :
    transform (some "key") "" [1, 2] "deep_male" (ApiOutcome.success []) = Except.ok []
    ∧ transform (some "key") "" [1, 2] "deep_male" (ApiOutcome.success [])
        ≠ Except.ok [1, 2] := by
  constructor
  · rfl
  · intro h
    have h2 : ([] : List Nat) = [1, 2] := Except.ok.inj h
    cases h2

/-- C1 amended: `transform` never propagates an exception, and it returns the
original buffer unchanged on missing credentials, unknown preset, empty
(falsy) voice id, and every thrown failure (network error or non-success
response) — but on a successful call it returns the response body as is, so
an empty result yields an empty buffer rather than the original input. -/
theorem C1_transform_pass_through :
    ∀ (apiKey : Option String) (customVoiceId : String) (pcm : List Nat)
      (preset : String) (outcome : ApiOutcome),
      (∃ r, transform apiKey customVoiceId pcm preset outcome = .ok r)
      ∧ (apiKey = none → transform apiKey customVoiceId pcm preset outcome = .ok pcm)
      ∧ (getVoiceId customVoiceId preset = none →
          transform apiKey customVoiceId pcm preset outcome = .ok pcm)
      ∧ (getVoiceId customVoiceId preset = some "" →
          transform apiKey customVoiceId pcm preset outcome = .ok pcm)
      ∧ (∀ msg, outcome = .failure msg →
          transform apiKey customVoiceId pcm preset outcome = .ok pcm)
      ∧ (∀ key vid body, apiKey = some key →
          getVoiceId customVoiceId preset = some vid → vid ≠ "" →
          outcome = .success body →
          transform apiKey customVoiceId pcm preset outcome = .ok body) := by
  intro apiKey customVoiceId pcm preset outcome
  refine ⟨?_, ?_, ?_, ?_, ?_, ?_⟩
  · cases apiKey with
    | none => exact ⟨pcm, rfl⟩
    | some k =>
      cases hv : getVoiceId customVoiceId preset with
      | none => exact ⟨pcm, by simp [transform, hv]⟩
      | some vid =>
        by_cases hemp : vid = ""
        · exact ⟨pcm, by simp [transform, hv, hemp]⟩
        · cases outcome with
          | success body =>
            exact ⟨body, by simp [transform, hv, hemp, callSpeechToSpeechAPI]⟩
          | failure msg =>
            exact ⟨pcm, by simp [transform, hv, hemp, callSpeechToSpeechAPI]⟩
  · intro h
    subst h
    rfl
  · intro h
    cases apiKey with
    | none => rfl
    | some k => simp [transform, h]
  · intro h
    cases apiKey with
    | none => rfl
    | some k => simp [transform, h]
  · intro msg h
    subst h
    cases apiKey with
    | none => rfl
    | some k =>
      cases hv : getVoiceId customVoiceId preset with
      | none => simp [transform, hv]
      | some vid =>
        by_cases hemp : vid = ""
        · simp [transform, hv, hemp]
        · simp [transform, hv, hemp, callSpeechToSpeechAPI]
  · intro key vid body hk hv hne ho
    subst hk
    subst ho
    simp [transform, hv, hne, callSpeechToSpeechAPI]

/-- Witness for C1 amended: the no-credentials path passes audio through, and
a successful call returns the response body. -/
theorem C1_transform_pass_through_witness :
    transform none "" [5, 6] "deep_male" (ApiOutcome.failure "net") = Except.ok [5, 6]
    ∧ transform (some "key") "" [5, 6] "deep_male" (ApiOutcome.success [9])
        = Except.ok [9] :=
  ⟨(C1_transform_pass_through none "" [5, 6] "deep_male"
      (ApiOutcome.failure "net")).2.1 rfl,
   (C1_transform_pass_through (some "key") "" [5, 6] "deep_male"
      (ApiOutcome.success [9])).2.2.2.2.2 "key" "pNInz6obpgDQGcFmaJgB" [9]
      rfl (by decide) (by decide) rfl⟩
